import Mathlib

/-
Verification development for the astrum chat application.

The definitions below are shallow embeddings of the Rust sources:
 * `crates/granular_btreemap/src/lib.rs` (the ordered keyed cache),
 * `src/blocks/models_menu.rs` (provider model cache, config fingerprints,
   sweep gate),
 * `src/managers/chats_manager/chat.rs` (chat session write operations),
 * `src/views/chat/blocks/chat_area/mod.rs` (streaming generation loop).

Rust `HashMap` and `BTreeMap` values are embedded as association lists:
a `HashMap` as a list with pairwise-distinct keys (iteration order is
irrelevant to every property proved here), a `BTreeMap` as a list kept
strictly sorted by the comparison the map is instantiated with.
`Rc` sharing is transparent to the value-level semantics and is dropped.
-/

set_option linter.unusedSectionVars false

namespace Astrum

instance (priority := 2000) {γ : Type} [DecidableEq γ] : BEq γ :=
  instBEqOfDecidableEq

/-! ### Association lists: the embedding of `HashMap`/`BTreeMap` lookups -/
section AssocList

variable {α β : Type} [DecidableEq α] [DecidableEq β]

/-- Embedding of map lookup (`HashMap::get` / `BTreeMap::get`): the value of
the first entry with the given key. -/
def alFind : List (α × β) → α → Option β
  | [], _ => none
  | e :: rest, a => if e.1 = a then some e.2 else alFind rest a

/-- Embedding of map insertion (`HashMap::insert` / `BTreeMap::insert` at the
value level): replaces the value of an existing entry in place, otherwise
appends a new entry. -/
def alInsert : List (α × β) → α → β → List (α × β)
  | [], a, b => [(a, b)]
  | e :: rest, a, b => if e.1 = a then (a, b) :: rest else e :: alInsert rest a b

/-- Embedding of map removal (`HashMap::remove` / `BTreeMap::remove`):
drops the first entry with the given key. -/
def alRemove : List (α × β) → α → List (α × β)
  | [], _ => []
  | e :: rest, a => if e.1 = a then rest else e :: alRemove rest a


end AssocList

/-! ### `GranularBTreeMap` (crates/granular_btreemap/src/lib.rs)

`GranularBTreeMap<K, V, O>` keeps a `lookup_map : HashMap<K, (Rc<O>, Rc<V>)>`
and an `order_map : BTreeMap<Rc<O>, Rc<V>>`.  The `BTreeMap` is embedded as an
association list kept strictly sorted by a boolean comparison `lt` standing
for the `Ord` instance of `O` (for the `ChatsMap` instantiation `O` is
`Reverse<NaiveDateTime>`, embedded below as `Nat` timestamps compared with
`ltRev`). -/


section GBM

variable {K V O : Type} [DecidableEq K] [DecidableEq O] [DecidableEq V]

/-- Embedding of `BTreeMap::insert` for the order map: replaces the value of
an entry with an `Ord`-equal key in place (keeping the original key, as
`BTreeMap::insert` does), otherwise places the new entry at its sorted
position. -/
def omInsert (lt : O → O → Bool) : List (O × V) → O → V → List (O × V)
  | [], o, v => [(o, v)]
  | e :: rest, o, v =>
    if e.1 = o then (e.1, v) :: rest
    else if lt o e.1 then (o, v) :: e :: rest
    else e :: omInsert lt rest o v

/-- State of a `GranularBTreeMap<K, V, O>`. -/
structure GBMap (K V O : Type) where
  lookup_map : List (K × O × V)
  order_map : List (O × V)
  deriving DecidableEq

/-- The state `GranularBTreeMap::new()` produces. -/
def GBMap.empty : GBMap K V O := ⟨[], []⟩

/-- Embedding of `GranularBTreeMap::insert`: if the key is already present,
its old order entry is removed from the order map first; then both indices
receive the new `(order_key, value)` association. -/
def GBMap.insert (lt : O → O → Bool) (m : GBMap K V O) (k : K) (v : V) (o : O) :
    GBMap K V O :=
  let om := match alFind m.lookup_map k with
    | some (o₀, _) => alRemove m.order_map o₀
    | none => m.order_map
  { lookup_map := alInsert m.lookup_map k (o, v)
    order_map := omInsert lt om o v }

/-- Embedding of `GranularBTreeMap::update_order_for_key`.  Mirrors the Rust
control flow exactly: `lookup_map.remove_entry(&key).ok_or(1)?` (absent key:
error `1`, nothing mutated), then `order_map.remove(&order_key).ok_or(2)?`
(missing order entry: error `2`, with the lookup entry already removed and
not restored), then both indices receive the value under the new order key.
The returned pair is (result, state after the call). -/
def GBMap.update_order_for_key (lt : O → O → Bool) (m : GBMap K V O) (k : K)
    (o' : O) : Except Nat Unit × GBMap K V O :=
  match alFind m.lookup_map k with
  | none => (Except.error 1, m)
  | some (o₀, v) =>
    match alFind m.order_map o₀ with
    | none => (Except.error 2, { m with lookup_map := alRemove m.lookup_map k })
    | some _ =>
      (Except.ok (),
        { lookup_map := alInsert (alRemove m.lookup_map k) k (o', v)
          order_map := omInsert lt (alRemove m.order_map o₀) o' v })

/-- Embedding of `GranularBTreeMap::get`. -/
def GBMap.get (m : GBMap K V O) (k : K) : Option V :=
  (alFind m.lookup_map k).map Prod.snd

/-- Embedding of `GranularBTreeMap::remove`: drops the key from the lookup map
and its order entry from the order map.  (`Rc::try_unwrap(value).ok()` yields
the value whenever the map holds the last strong reference, which is the case
under exclusive ownership of the map.) -/
def GBMap.remove (m : GBMap K V O) (k : K) : Option V × GBMap K V O :=
  match alFind m.lookup_map k with
  | none => (none, m)
  | some (o₀, v) =>
    (some v,
      { lookup_map := alRemove m.lookup_map k
        order_map := alRemove m.order_map o₀ })

/-- Embedding of `GranularBTreeMap::values`: the order map's values in its
iteration (sorted) order. -/
def GBMap.values (m : GBMap K V O) : List V := m.order_map.map Prod.snd

/-- An operation on the map, for reasoning about operation sequences. -/
inductive GBOp (K V O : Type) where
  | ins (k : K) (v : V) (o : O)
  | upd (k : K) (o : O)
  | rem (k : K)
  deriving DecidableEq

/-- Effect of one operation on the state (for `upd`/`rem` the state component
of the result, matching `&mut self` mutation in Rust). -/
def applyOp (lt : O → O → Bool) (m : GBMap K V O) : GBOp K V O → GBMap K V O
  | .ins k v o => m.insert lt k v o
  | .upd k o => (m.update_order_for_key lt k o).2
  | .rem k => (m.remove k).2

/-- Effect of a sequence of operations. -/
def applyOps (lt : O → O → Bool) (m : GBMap K V O) (ops : List (GBOp K V O)) :
    GBMap K V O :=
  ops.foldl (applyOp lt) m

/-- The comparison `lt` is a strict linear order (what Rust's `Ord` contract
guarantees for the `BTreeMap` key type). -/
structure IsSLO (lt : O → O → Bool) : Prop where
  irrefl : ∀ a, lt a a = false
  trans : ∀ a b c, lt a b = true → lt b c = true → lt a c = true
  total : ∀ a b, a ≠ b → lt a b = true ∨ lt b a = true

/-- Sortedness relation on order-map entries: strictly increasing keys. -/
def OrdRel (lt : O → O → Bool) (a b : O × V) : Prop := lt a.1 b.1 = true

instance (lt : O → O → Bool) (a b : O × V) : Decidable (OrdRel lt a b) :=
  inferInstanceAs (Decidable (_ = true))

/-- The dual-index correspondence invariant: lookup keys are pairwise
distinct, the order map is strictly sorted, and the order map holds exactly
the `(order_key, value)` associations of the lookup map (as a multiset). -/
def Inv (lt : O → O → Bool) (m : GBMap K V O) : Prop :=
  (m.lookup_map.map Prod.fst).Nodup ∧
  List.Pairwise (OrdRel lt) m.order_map ∧
  m.order_map.Perm (m.lookup_map.map Prod.snd)

instance (lt : O → O → Bool) (m : GBMap K V O) : Decidable (Inv lt m) :=
  inferInstanceAs (Decidable (_ ∧ _ ∧ _))

/-- An order key is fresh for a key: no entry of a different live key holds
it. -/
def liveOrderFresh (m : GBMap K V O) (k : K) (o : O) : Bool :=
  m.lookup_map.all (fun e => decide (e.1 = k) || decide (e.2.1 ≠ o))

/-- A step is good when the order key it supplies does not collide with a
different live key's order key. -/
def GoodStep (m : GBMap K V O) : GBOp K V O → Bool
  | .ins k _ o => liveOrderFresh m k o
  | .upd k o => liveOrderFresh m k o
  | .rem _ => true

/-- A sequence of operations is good when every step is good in the state it
runs in. -/
def GoodSeq (lt : O → O → Bool) (m : GBMap K V O) : List (GBOp K V O) → Bool
  | [] => true
  | op :: rest => GoodStep m op && GoodSeq lt (applyOp lt m op) rest


end GBM

/-- Embedding of the natural `Ord` on integer keys (generic instantiation used
for concrete test states of the map). -/
def ltNat : Nat → Nat → Bool := fun a b => decide (a < b)

/-- Embedding of the `Ord` of `Reverse<NaiveDateTime>`: timestamps are
embedded as `Nat` seconds and `Reverse` flips the comparison, so the
`BTreeMap` of `ChatsMap` iterates from the latest timestamp to the earliest. -/
def ltRev : Nat → Nat → Bool := fun a b => decide (b < a)

/-! ### `ModelsCache` and the sweep gate (src/blocks/models_menu.rs)

`UniqueId` values are embedded as `Nat`.  `Instant` values are embedded as
`Nat` seconds on the monotonic clock, with `fetched_at.elapsed()` at time
`now` equal to `now - fetched_at`.  The SHA-256 digest `hash_api_key` is
embedded as an abstract digest function `hash : String → Nat` passed to each
operation that hashes a credential (the code compares digests only, never
the raw keys). -/

section ModelsMenu

/-- Embedding of `MODEL_FETCH_COOLDOWN_SECS` (seconds). -/
def MODEL_FETCH_COOLDOWN_SECS : Nat := 120

/-- Embedding of the per-provider cache entry `ProviderModels`. -/
structure ProviderModels where
  models : List String
  provider_name : String
  fetched_at : Nat
  deriving DecidableEq

/-- Embedding of `CachedModel` (one row of the flattened list). -/
structure CachedModel where
  provider_id : Nat
  provider_name : String
  model_id : String
  deriving DecidableEq

/-- Embedding of `CachedProviderState`: the configuration fingerprint of a
provider (URL stored verbatim, credential stored as its digest only). -/
structure CachedProviderState where
  url : String
  api_key_hash : Nat
  deriving DecidableEq

/-- Embedding of `ModelsCache`. -/
structure ModelsCache where
  all_models : List CachedModel
  per_provider : List (Nat × ProviderModels)
  provider_config_cache : List (Nat × CachedProviderState)
  deriving DecidableEq

/-- Embedding of `ModelsCache::new`. -/
def ModelsCache.new : ModelsCache := ⟨[], [], []⟩

/-- Embedding of `ModelsCache::is_provider_stale` at monotonic time `now`:
true when no entry exists or `elapsed >= MODEL_FETCH_COOLDOWN_SECS`. -/
def ModelsCache.is_provider_stale (now : Nat) (c : ModelsCache) (pid : Nat) :
    Bool :=
  match alFind c.per_provider pid with
  | some cached => decide (MODEL_FETCH_COOLDOWN_SECS ≤ now - cached.fetched_at)
  | none => true

/-- Embedding of `ModelsCache::get_provider_models` at monotonic time `now`:
the cached `(provider_name, models)` only while
`elapsed < MODEL_FETCH_COOLDOWN_SECS`, else `none`. -/
def ModelsCache.get_provider_models (now : Nat) (c : ModelsCache) (pid : Nat) :
    Option (String × List String) :=
  match alFind c.per_provider pid with
  | none => none
  | some cached =>
    if now - cached.fetched_at < MODEL_FETCH_COOLDOWN_SECS then
      some (cached.provider_name, cached.models)
    else none

/-- Embedding of `ModelsCache::rebuild_all_models`. -/
def ModelsCache.rebuild_all_models (c : ModelsCache) : ModelsCache :=
  { c with all_models :=
      (c.per_provider.map (fun e =>
        e.2.models.map (fun mid => CachedModel.mk e.1 e.2.provider_name mid))).flatten }

/-- Embedding of `ModelsCache::refresh_models_for_provider` at time `now`:
unconditional overwrite of the per-provider entry with a fresh timestamp,
then a rebuild of the flattened list. -/
def ModelsCache.refresh_models_for_provider (now : Nat) (c : ModelsCache)
    (pid : Nat) (provider_name : String) (models : List String) : ModelsCache :=
  ModelsCache.rebuild_all_models
    { c with per_provider := alInsert c.per_provider pid ⟨models, provider_name, now⟩ }

/-- Embedding of `CachedProviderState::new`. -/
def CachedProviderState.new (hash : String → Nat) (url : String)
    (api_key : String) : CachedProviderState :=
  ⟨url, hash api_key⟩

/-- Embedding of `CachedProviderState::url_changed`. -/
def CachedProviderState.url_changed (st : CachedProviderState)
    (new_url : String) : Bool :=
  decide (st.url ≠ new_url)

/-- Embedding of `CachedProviderState::api_key_changed` (digest-only
comparison). -/
def CachedProviderState.api_key_changed (hash : String → Nat)
    (st : CachedProviderState) (new_api_key : String) : Bool :=
  decide (st.api_key_hash ≠ hash new_api_key)

/-- Embedding of `CachedProviderState::set_url`. -/
def CachedProviderState.set_url (st : CachedProviderState) (url : String) :
    CachedProviderState :=
  { st with url := url }

/-- Embedding of `CachedProviderState::set_api_key`. -/
def CachedProviderState.set_api_key (hash : String → Nat)
    (st : CachedProviderState) (api_key : String) : CachedProviderState :=
  { st with api_key_hash := hash api_key }

/-- Embedding of `ProviderConfigChange`. -/
inductive ProviderConfigChange where
  | create
  | url (u : String)
  | apiKey (k : Option String)
  deriving DecidableEq

/-- Embedding of `ModelsCache::get_or_create_config_cache`: the fingerprint
for the provider, seeded from the provider's current URL and credential when
absent.  Returns the fingerprint together with the cache state after the
`entry().or_insert_with()` call. -/
def ModelsCache.get_or_create_config_cache (hash : String → Nat)
    (c : ModelsCache) (pid : Nat) (current_url current_api_key : String) :
    CachedProviderState × ModelsCache :=
  match alFind c.provider_config_cache pid with
  | some st => (st, c)
  | none =>
    let st := CachedProviderState.new hash current_url current_api_key
    (st, { c with provider_config_cache := alInsert c.provider_config_cache pid st })

/-- Embedding of `check_and_update_config_cache` (the spec's
`detect_config_change`): gets-or-creates the fingerprint from the provider's
current values, then matches the change event; `Create` reports a change
unconditionally, `Url`/`ApiKey` compare the supplied value against the
fingerprint (the credential via digests) and update the fingerprint only
when different.  `current_url`/`current_api_key` are the values read from
the managers' provider state; the result pair is (reported change, cache
after the call). -/
def check_and_update_config_cache (hash : String → Nat) (c : ModelsCache)
    (pid : Nat) (current_url current_api_key : String)
    (config_change : ProviderConfigChange) : Bool × ModelsCache :=
  let sc := ModelsCache.get_or_create_config_cache hash c pid current_url current_api_key
  let st := sc.1
  let c₀ := sc.2
  match config_change with
  | .create => (true, c₀)
  | .url u =>
    let changed := st.url_changed u
    if changed then
      (changed,
        { c₀ with provider_config_cache :=
            alInsert c₀.provider_config_cache pid (st.set_url u) })
    else (changed, c₀)
  | .apiKey api_key =>
    let key := api_key.getD ""
    let changed := CachedProviderState.api_key_changed hash st key
    let st' := CachedProviderState.set_api_key hash st key
    if changed then
      (changed,
        { c₀ with provider_config_cache := alInsert c₀.provider_config_cache pid st' })
    else (changed, c₀)

/-- Global state relevant to a bulk catalog sweep: the `FETCH_IN_PROGRESS`
atomic flag and the models cache. -/
structure SweepState where
  fetch_in_progress : Bool
  cache : ModelsCache
  deriving DecidableEq

/-- Embedding of the synchronous entry of `prefetch_all_models` /
`fetch_all_models_with_source`: `FETCH_IN_PROGRESS.swap(true, SeqCst)` sets
the flag and the call proceeds only when the previous value was `false`
(otherwise it returns immediately, touching nothing else).  The result pair
is (acquired the gate, state after the swap). -/
def sweep_request (s : SweepState) : Bool × SweepState :=
  (!s.fetch_in_progress, { s with fetch_in_progress := true })

/-- Embedding of the body of a sweep that acquired the gate: each provider
whose fetch succeeded refreshes its cache entry (failed providers are only
logged), and finally `FETCH_IN_PROGRESS.store(false, SeqCst)` clears the
gate. -/
def sweep_run (s : SweepState) (now : Nat)
    (fetched : List (Nat × String × List String)) : SweepState :=
  { fetch_in_progress := false
    cache := fetched.foldl
      (fun c r => ModelsCache.refresh_models_for_provider now c r.1 r.2.1 r.2.2)
      s.cache }

end ModelsMenu

/-! ### `Chat` session writes (src/managers/chats_manager/chat.rs)

Message ids and chat ids (`UniqueId`) are embedded as `Nat`, timestamps as
`Nat` seconds.  The sqlite `messages` table is embedded as a `Store` mapping
message id to its `content` column; a store-level failure of a statement is
injected through the `store_error` argument (`some e` = the statement fails
with error text `e`, embedding `rusqlite::Error`).  The in-memory
`IndexMap<UniqueId, MessageWithMetadata>` is embedded as an association
list of (message id, content); `get_mut` + in-place mutation keeps the entry
position, matching `alInsert`.  The chats map is the `ChatsMap`
instantiation of `GranularBTreeMap` (values are irrelevant to the claims and
embedded as `Unit`); its `update_order_for_key(...).unwrap()` calls take the
post-call state. -/

section ChatSession

/-- The `ChatsMap` instantiation `GranularBTreeMap<UniqueId, Entity<Chat>,
Reverse<NaiveDateTime>>`. -/
abbrev ChatsMap := GBMap Nat Unit Nat

/-- Embedding of the sqlite `messages` table: message id to `content`. -/
abbrev Store := List (Nat × String)

/-- In-memory session state touched by the write operations: the message map
and the chats ordering map. -/
structure ChatState where
  messages : List (Nat × String)
  chats : ChatsMap
  deriving DecidableEq

/-- Embedding of `Chat::push_message`: the `INSERT` runs first and `?`
propagates its failure before anything is mutated; on success the message is
added to the in-memory map and the chat is relocated in the chats map under
`Reverse(created_at)`.  `mid` stands for the fresh `UniqueId::new()`. -/
def push_message (store_error : Option String) (store : Store) (st : ChatState)
    (chat_id mid : Nat) (content : String) (now : Nat) :
    Except String Nat × Store × ChatState :=
  match store_error with
  | some e => (Except.error e, store, st)
  | none =>
    (Except.ok mid,
      alInsert store mid content,
      { messages := alInsert st.messages mid content
        chats := (st.chats.update_order_for_key ltRev chat_id now).2 })

/-- Embedding of `Chat::push_message_content`: the delta is first appended to
the cached message (a no-op when the id is absent, matching the
`get_mut ... else return` guard), then the `UPDATE ... RETURNING content`
statement appends in the store and yields the authoritative content (failing
with `QueryReturnedNoRows` when the row is absent); on a mismatch between the
authoritative content and the cached content the cached copy is overwritten;
finally the chat is relocated under `Reverse(edited_at)`.  `?` propagates a
store failure after the optimistic in-memory append already happened. -/
def push_message_content (store_error : Option String) (store : Store)
    (st : ChatState) (chat_id mid : Nat) (content : String) (now : Nat) :
    Except String Unit × Store × ChatState :=
  let messages₁ :=
    match alFind st.messages mid with
    | some cached => alInsert st.messages mid (cached ++ content)
    | none => st.messages
  let new_cached_content := alFind messages₁ mid
  match store_error with
  | some e => (Except.error e, store, { st with messages := messages₁ })
  | none =>
    match alFind store mid with
    | none =>
      (Except.error "QueryReturnedNoRows", store, { st with messages := messages₁ })
    | some stored =>
      let new_content := stored ++ content
      let store' := alInsert store mid new_content
      let messages₂ :=
        if some new_content ≠ new_cached_content then
          match alFind messages₁ mid with
          | some _ => alInsert messages₁ mid new_content
          | none => messages₁
        else messages₁
      (Except.ok (),
        store',
        { messages := messages₂
          chats := (st.chats.update_order_for_key ltRev chat_id now).2 })

end ChatSession

/-! ### The streaming generation loop (src/views/chat/blocks/chat_area/mod.rs)

`send_message` matches on `provider.inner.chat(&options).await`: an `Err`
from the initial request pushes the error's text into the assistant message;
an `Ok` stream is consumed with `while let Some(Ok(chunk))`, each chunk's
content being pushed into the assistant message.  The stream is embedded as
a list of `Except` items (`ok` = a delta, `error` = a stream error; end of
list = the stream's `None`), and the state as the assistant message's
accumulated content. -/

section Streaming

/-- One item yielded by the provider's response stream. -/
abbrev StreamItem := Except String String

/-- Embedding of the `while let Some(Ok(chunk))` loop: each `Ok` chunk's
content is appended to the assistant message (via `push_message_content`);
the loop exits at the first non-`Ok` item. -/
def streamLoop : String → List StreamItem → String
  | acc, [] => acc
  | acc, Except.ok chunk :: rest => streamLoop (acc ++ chunk) rest
  | acc, Except.error _ :: _ => acc

/-- Embedding of the `match response` in the streaming future of
`send_message`, at the level of the assistant message's content: an initial
request error is appended to the message, an `Ok` response runs the chunk
loop. -/
def run_generation (response : Except String (List StreamItem))
    (content : String) : String :=
  match response with
  | Except.ok items => streamLoop content items
  | Except.error err => content ++ err

end Streaming

/-! ### Library lemmas about association lists and the order map -/

section AssocListLemmas

variable {α β : Type} [DecidableEq α] [DecidableEq β]

theorem beq_false_of_ne {γ : Type} [DecidableEq γ] {a b : γ} (h : a ≠ b) :
    ¬(a == b) = true := by
  intro hb
  exact h (of_decide_eq_true hb)

theorem erase_cons_head_dec {γ : Type} [DecidableEq γ] (a : γ) (l : List γ) :
    (a :: l).erase a = l :=
  List.erase_cons_head a l

theorem ne_of_mem_erase_nodup {γ : Type} [DecidableEq γ] {l : List γ} {a b : γ}
    (hnd : l.Nodup) (h : a ∈ l.erase b) : a ≠ b :=
  ((List.Nodup.mem_erase_iff (b := b) hnd).1 h).1

/-- Embedding of map lookup (`HashMap::get` / `BTreeMap::get`): the value of
the first entry with the given key. -/

theorem alFind_alInsert_self (l : List (α × β)) (a : α) (b : β) :
    alFind (alInsert l a b) a = some b := by
  induction l with
  | nil => simp [alInsert, alFind]
  | cons e rest ih =>
    obtain ⟨x, y⟩ := e
    by_cases h : x = a
    · simp [alInsert, h, alFind]
    · simp [alInsert, h, alFind, ih]

theorem alFind_eq_none_iff (l : List (α × β)) (a : α) :
    alFind l a = none ↔ a ∉ l.map Prod.fst := by
  induction l with
  | nil => simp [alFind]
  | cons e rest ih =>
    obtain ⟨x, y⟩ := e
    by_cases h : x = a
    · simp [alFind, h]
    · simp [alFind, h, ih, Ne.symm h]

theorem alFind_mem {l : List (α × β)} {a : α} {b : β}
    (h : alFind l a = some b) : (a, b) ∈ l := by
  induction l with
  | nil => simp [alFind] at h
  | cons e rest ih =>
    obtain ⟨x, y⟩ := e
    by_cases he : x = a
    · subst he
      have hb : y = b := by simpa [alFind] using h
      subst hb
      exact List.mem_cons_self _ _
    · exact List.mem_cons_of_mem _ (ih (by simpa [alFind, he] using h))

theorem alFind_of_mem {l : List (α × β)} {a : α} {b : β}
    (hnd : (l.map Prod.fst).Nodup) (h : (a, b) ∈ l) : alFind l a = some b := by
  induction l with
  | nil => simp at h
  | cons e rest ih =>
    obtain ⟨x, y⟩ := e
    rw [List.map_cons] at hnd
    obtain ⟨hx, hnd'⟩ := List.nodup_cons.1 hnd
    rcases List.mem_cons.1 h with h' | h'
    · simp only [Prod.mk.injEq] at h'
      obtain ⟨rfl, rfl⟩ := h'
      simp [alFind]
    · have hne : x ≠ a := by
        intro hEq
        subst hEq
        exact hx (List.mem_map.2 ⟨(x, b), h', rfl⟩)
      simp [alFind, hne, ih hnd' h']

theorem alInsert_of_find_none {l : List (α × β)} {a : α}
    (h : alFind l a = none) (b : β) : alInsert l a b = l ++ [(a, b)] := by
  induction l with
  | nil => simp [alInsert]
  | cons e rest ih =>
    obtain ⟨x, y⟩ := e
    by_cases he : x = a
    · simp [alFind, he] at h
    · simp [alInsert, he, ih (by simpa [alFind, he] using h)]

theorem alInsert_keys_of_find_some {l : List (α × β)} {a : α} {b₀ : β}
    (h : alFind l a = some b₀) (b : β) :
    (alInsert l a b).map Prod.fst = l.map Prod.fst := by
  induction l with
  | nil => simp [alFind] at h
  | cons e rest ih =>
    obtain ⟨x, y⟩ := e
    by_cases he : x = a
    · simp [alInsert, he]
    · simp [alInsert, he, ih (by simpa [alFind, he] using h)]

theorem alInsert_snd_perm {l : List (α × β)} {a : α} {b₀ : β}
    (hnd : (l.map Prod.snd).Nodup) (h : alFind l a = some b₀) (b : β) :
    ((alInsert l a b).map Prod.snd).Perm (b :: (l.map Prod.snd).erase b₀) := by
  induction l with
  | nil => simp [alFind] at h
  | cons e rest ih =>
    obtain ⟨x, y⟩ := e
    rw [List.map_cons] at hnd
    obtain ⟨hy, hnd'⟩ := List.nodup_cons.1 hnd
    by_cases he : x = a
    · have hb : y = b₀ := by simpa [alFind, he] using h
      subst hb
      simp [alInsert, he, List.erase_cons_head]
    · have h' : alFind rest a = some b₀ := by simpa [alFind, he] using h
      have hb₀ : b₀ ∈ rest.map Prod.snd :=
        List.mem_map_of_mem Prod.snd (alFind_mem h')
      have hyne : y ≠ b₀ := by
        intro hEq
        exact hy (by rw [hEq]; exact hb₀)
      simp only [alInsert, if_neg he, List.map_cons]
      rw [List.erase_cons_tail (beq_false_of_ne hyne)]
      exact ((ih hnd' h').cons y).trans (List.Perm.swap b y _)

theorem alRemove_sublist (l : List (α × β)) (a : α) : (alRemove l a).Sublist l := by
  induction l with
  | nil => simp [alRemove]
  | cons e rest ih =>
    obtain ⟨x, y⟩ := e
    by_cases he : x = a
    · simp only [alRemove, if_pos he]
      exact List.sublist_cons_self _ _
    · simp only [alRemove, if_neg he]
      exact ih.cons₂ _

theorem alRemove_keys (l : List (α × β)) (a : α) :
    (alRemove l a).map Prod.fst = (l.map Prod.fst).erase a := by
  induction l with
  | nil => simp [alRemove]
  | cons e rest ih =>
    obtain ⟨x, y⟩ := e
    by_cases he : x = a
    · subst he
      simp [alRemove, List.erase_cons_head]
    · simp only [alRemove, if_neg he, List.map_cons]
      rw [List.erase_cons_tail (beq_false_of_ne (fun hEq => he hEq)), ih]

theorem alRemove_snd {l : List (α × β)} {a : α} {b₀ : β}
    (hnd : (l.map Prod.snd).Nodup) (h : alFind l a = some b₀) :
    (alRemove l a).map Prod.snd = (l.map Prod.snd).erase b₀ := by
  induction l with
  | nil => simp [alFind] at h
  | cons e rest ih =>
    obtain ⟨x, y⟩ := e
    rw [List.map_cons] at hnd
    obtain ⟨hy, hnd'⟩ := List.nodup_cons.1 hnd
    by_cases he : x = a
    · have hb : y = b₀ := by simpa [alFind, he] using h
      subst hb
      simp [alRemove, he, List.erase_cons_head]
    · have h' : alFind rest a = some b₀ := by simpa [alFind, he] using h
      have hb₀ : b₀ ∈ rest.map Prod.snd :=
        List.mem_map_of_mem Prod.snd (alFind_mem h')
      have hyne : y ≠ b₀ := by
        intro hEq
        exact hy (by rw [hEq]; exact hb₀)
      simp only [alRemove, if_neg he, List.map_cons]
      rw [List.erase_cons_tail (beq_false_of_ne hyne), ih hnd' h']

theorem alRemove_eq_erase {l : List (α × β)} {a : α} {b : β}
    (hnd : (l.map Prod.fst).Nodup) (h : (a, b) ∈ l) :
    alRemove l a = l.erase (a, b) := by
  induction l with
  | nil => simp at h
  | cons e rest ih =>
    obtain ⟨x, y⟩ := e
    rw [List.map_cons] at hnd
    obtain ⟨hx, hnd'⟩ := List.nodup_cons.1 hnd
    by_cases he : x = a
    · have hxy : (x, y) = (a, b) := by
        rcases List.mem_cons.1 h with h' | h'
        · exact h'.symm
        · exact absurd (by rw [he]; exact List.mem_map.2 ⟨(a, b), h', rfl⟩) hx
      simp only [alRemove, if_pos he]
      rw [hxy, erase_cons_head_dec]
    · have hmem : (a, b) ∈ rest := by
        rcases List.mem_cons.1 h with h' | h'
        · exact absurd (congrArg Prod.fst h'.symm) he
        · exact h'
      have hne : (x, y) ≠ (a, b) := by
        intro hEq
        injection hEq with h1 h2
        exact he h1
      simp only [alRemove, if_neg he]
      rw [List.erase_cons_tail (beq_false_of_ne hne), ih hnd' hmem]

theorem mem_unique_of_nodup_keys {l : List (α × β)} {a : α} {b b' : β}
    (hnd : (l.map Prod.fst).Nodup) (h : (a, b) ∈ l) (h' : (a, b') ∈ l) :
    b = b' := by
  have h1 := alFind_of_mem hnd h
  have h2 := alFind_of_mem hnd h'
  rw [h1] at h2
  exact Option.some.inj h2

theorem alFind_alRemove_self {l : List (α × β)} (hnd : (l.map Prod.fst).Nodup)
    (a : α) : alFind (alRemove l a) a = none := by
  refine (alFind_eq_none_iff _ _).2 ?_
  rw [alRemove_keys]
  exact fun hm => ne_of_mem_erase_nodup hnd hm rfl


end AssocListLemmas

section GBMLemmas

variable {K V O : Type} [DecidableEq K] [DecidableEq O] [DecidableEq V]

theorem omInsert_perm_fresh {lt : O → O → Bool} {om : List (O × V)} {o : O}
    (h : o ∉ om.map Prod.fst) (v : V) :
    (omInsert lt om o v).Perm ((o, v) :: om) := by
  induction om with
  | nil => simp [omInsert]
  | cons e rest ih =>
    obtain ⟨x, w⟩ := e
    rw [List.map_cons] at h
    have hxo : ¬(x = o) := fun hEq => h (List.mem_cons.2 (Or.inl hEq.symm))
    have hrest : o ∉ rest.map Prod.fst := fun hm => h (List.mem_cons.2 (Or.inr hm))
    by_cases hlt : lt o x
    · simp [omInsert, hxo, hlt]
    · simp only [omInsert, if_neg hxo, if_neg hlt]
      exact ((ih hrest).cons (x, w)).trans (List.Perm.swap (o, v) (x, w) rest)

theorem omInsert_keys_subset {lt : O → O → Bool} {om : List (O × V)} {o : O}
    {v : V} {e' : O × V} (h : e' ∈ omInsert lt om o v) :
    e'.1 = o ∨ e'.1 ∈ om.map Prod.fst := by
  induction om with
  | nil =>
    simp [omInsert] at h
    simp [h]
  | cons e rest ih =>
    obtain ⟨x, w⟩ := e
    by_cases hxo : x = o
    · simp only [omInsert, if_pos hxo] at h
      rcases List.mem_cons.1 h with h' | h'
      · right
        simp [h', hxo]
      · right
        simp only [List.map_cons]
        exact List.mem_cons.2 (Or.inr (List.mem_map.2 ⟨e', h', rfl⟩))
    · by_cases hlt : lt o x
      · simp only [omInsert, if_neg hxo, if_pos hlt] at h
        rcases List.mem_cons.1 h with h' | h'
        · left
          simp [h']
        · right
          exact List.mem_map.2 ⟨e', h', rfl⟩
      · simp only [omInsert, if_neg hxo, if_neg hlt] at h
        rcases List.mem_cons.1 h with h' | h'
        · right
          simp [h']
        · rcases ih h' with h'' | h''
          · exact Or.inl h''
          · right
            simp only [List.map_cons]
            exact List.mem_cons.2 (Or.inr h'')

theorem omInsert_pairwise {lt : O → O → Bool} (hlt : IsSLO lt)
    {om : List (O × V)} (hp : List.Pairwise (OrdRel lt) om) (o : O) (v : V) :
    List.Pairwise (OrdRel lt) (omInsert lt om o v) := by
  induction om with
  | nil => simp [omInsert]
  | cons e rest ih =>
    obtain ⟨x, w⟩ := e
    obtain ⟨he, hrest⟩ := List.pairwise_cons.1 hp
    by_cases hxo : x = o
    · simp only [omInsert, if_pos hxo]
      exact List.pairwise_cons.2 ⟨fun b hb => he b hb, hrest⟩
    · by_cases hl : lt o x
      · simp only [omInsert, if_neg hxo, if_pos hl]
        refine List.pairwise_cons.2 ⟨?_, hp⟩
        intro b hb
        rcases List.mem_cons.1 hb with h' | h'
        · subst h'
          exact hl
        · exact hlt.trans _ _ _ hl (he b h')
      · simp only [omInsert, if_neg hxo, if_neg hl]
        refine List.pairwise_cons.2 ⟨?_, ih hrest⟩
        intro b hb
        rcases omInsert_keys_subset hb with h' | h'
        · show lt x b.1 = true
          rw [h']
          rcases hlt.total o x (fun hEq => hxo hEq.symm) with h'' | h''
          · exact absurd h'' (by simpa using hl)
          · exact h''
        · rcases List.mem_map.1 h' with ⟨c, hc, hc1⟩
          have := he c hc
          show lt x b.1 = true
          rw [← hc1]
          exact this

theorem pairwise_keys_nodup {lt : O → O → Bool} (hlt : IsSLO lt)
    {om : List (O × V)} (hp : List.Pairwise (OrdRel lt) om) :
    (om.map Prod.fst).Nodup := by
  refine List.pairwise_map.2 (hp.imp ?_)
  intro a b h
  intro hEq
  unfold OrdRel at h
  rw [hEq, hlt.irrefl] at h
  exact Bool.false_ne_true h

/-- Consequence of `liveOrderFresh` at the `Prop` level. -/
theorem liveOrderFresh_spec {m : GBMap K V O} {k : K} {o : O}
    (h : liveOrderFresh m k o = true) :
    ∀ e ∈ m.lookup_map, e.1 ≠ k → e.2.1 ≠ o := by
  intro e he hne
  have := List.all_eq_true.1 h e he
  simp at this
  tauto

theorem inv_insert {lt : O → O → Bool} (hlt : IsSLO lt) {m : GBMap K V O}
    (h : Inv lt m) {k : K} {o : O} (hfresh : liveOrderFresh m k o = true)
    (v : V) : Inv lt (m.insert lt k v o) := by
  obtain ⟨hnd, hpw, hperm⟩ := h
  have homnd : (m.order_map.map Prod.fst).Nodup := pairwise_keys_nodup hlt hpw
  have hprojkeys : ((m.lookup_map.map Prod.snd).map Prod.fst).Nodup :=
    (hperm.map Prod.fst).nodup homnd
  have hprojnodup : (m.lookup_map.map Prod.snd).Nodup :=
    List.Nodup.of_map Prod.fst hprojkeys
  have hfreshP := liveOrderFresh_spec hfresh
  cases hfind : alFind m.lookup_map k with
  | none =>
    have hknotin : k ∉ m.lookup_map.map Prod.fst := (alFind_eq_none_iff _ _).1 hfind
    have hins : alInsert m.lookup_map k (o, v) = m.lookup_map ++ [(k, (o, v))] :=
      alInsert_of_find_none hfind _
    have hofresh : o ∉ m.order_map.map Prod.fst := by
      intro hmem
      rcases List.mem_map.1 hmem with ⟨p, hp, hp1⟩
      have hpp : p ∈ m.lookup_map.map Prod.snd := hperm.mem_iff.1 hp
      rcases List.mem_map.1 hpp with ⟨e, hel, he2⟩
      have hek : e.1 ≠ k := by
        intro hEq
        exact hknotin (by rw [← hEq]; exact List.mem_map.2 ⟨e, hel, rfl⟩)
      have := hfreshP e hel hek
      rw [he2, hp1] at this
      exact this rfl
    refine ⟨?_, ?_, ?_⟩
    · show ((alInsert m.lookup_map k (o, v)).map Prod.fst).Nodup
      rw [hins, List.map_append]
      simp [List.nodup_append, hnd, hknotin]
    · show List.Pairwise (OrdRel lt) (omInsert lt _ o v)
      simp only [GBMap.insert, hfind]
      exact omInsert_pairwise hlt hpw o v
    · show (omInsert lt _ o v).Perm ((alInsert m.lookup_map k (o, v)).map Prod.snd)
      simp only [GBMap.insert, hfind]
      rw [hins, List.map_append]
      exact (omInsert_perm_fresh hofresh v).trans
        ((hperm.cons (o, v)).trans (List.perm_append_singleton _ _).symm)
  | some p =>
    obtain ⟨o₀, v₀⟩ := p
    have hkv : (k, (o₀, v₀)) ∈ m.lookup_map := alFind_mem hfind
    have hovproj : (o₀, v₀) ∈ m.lookup_map.map Prod.snd :=
      List.mem_map.2 ⟨_, hkv, rfl⟩
    have hovom : (o₀, v₀) ∈ m.order_map := hperm.mem_iff.2 hovproj
    have hrem : alRemove m.order_map o₀ = m.order_map.erase (o₀, v₀) :=
      alRemove_eq_erase homnd hovom
    have homnodup : m.order_map.Nodup := List.Nodup.of_map Prod.fst homnd
    have hofresh : o ∉ (m.order_map.erase (o₀, v₀)).map Prod.fst := by
      intro hmem
      rcases List.mem_map.1 hmem with ⟨p, hp, hp1⟩
      have hpom : p ∈ m.order_map := List.mem_of_mem_erase hp
      have hpne : p ≠ (o₀, v₀) := ne_of_mem_erase_nodup homnodup hp
      have hpp : p ∈ m.lookup_map.map Prod.snd := hperm.mem_iff.1 hpom
      rcases List.mem_map.1 hpp with ⟨e, hel, he2⟩
      by_cases hek : e.1 = k
      · have hke : (k, e.2) ∈ m.lookup_map := by
          rw [← hek]
          exact hel
        have he2v : e.2 = (o₀, v₀) := mem_unique_of_nodup_keys hnd hke hkv
        exact hpne (by rw [← he2, he2v])
      · have := hfreshP e hel hek
        rw [he2, hp1] at this
        exact this rfl
    refine ⟨?_, ?_, ?_⟩
    · show ((alInsert m.lookup_map k (o, v)).map Prod.fst).Nodup
      rw [alInsert_keys_of_find_some hfind]
      exact hnd
    · simp only [GBMap.insert, hfind]
      rw [hrem]
      exact omInsert_pairwise hlt
        (List.Pairwise.sublist (List.erase_sublist _ _) hpw) o v
    · simp only [GBMap.insert, hfind]
      rw [hrem]
      exact ((omInsert_perm_fresh hofresh v).trans
        ((hperm.erase (o₀, v₀)).cons (o, v))).trans
        (alInsert_snd_perm hprojnodup hfind (o, v)).symm

/-- After erasing the `(order, value)` association of key `k`, a fresh order
key `o` (fresh for `k`) does not occur among the remaining order-map keys. -/
theorem order_fresh_in_erased {m : GBMap K V O}
    (hnd : (m.lookup_map.map Prod.fst).Nodup)
    (hperm : m.order_map.Perm (m.lookup_map.map Prod.snd))
    (homnodup : m.order_map.Nodup) {k : K} {o o₀ : O} {v₀ : V}
    (hfreshP : ∀ e ∈ m.lookup_map, e.1 ≠ k → e.2.1 ≠ o)
    (hkv : (k, (o₀, v₀)) ∈ m.lookup_map) :
    o ∉ (m.order_map.erase (o₀, v₀)).map Prod.fst := by
  intro hmem
  rcases List.mem_map.1 hmem with ⟨p, hp, hp1⟩
  have hpom : p ∈ m.order_map := List.mem_of_mem_erase hp
  have hpne : p ≠ (o₀, v₀) := ne_of_mem_erase_nodup homnodup hp
  have hpp : p ∈ m.lookup_map.map Prod.snd := hperm.mem_iff.1 hpom
  rcases List.mem_map.1 hpp with ⟨e, hel, he2⟩
  by_cases hek : e.1 = k
  · have hke : (k, e.2) ∈ m.lookup_map := by
      rw [← hek]
      exact hel
    have he2v : e.2 = (o₀, v₀) := mem_unique_of_nodup_keys hnd hke hkv
    exact hpne (by rw [← he2, he2v])
  · have := hfreshP e hel hek
    rw [he2, hp1] at this
    exact this rfl

theorem inv_upd {lt : O → O → Bool} (hlt : IsSLO lt) {m : GBMap K V O}
    (h : Inv lt m) {k : K} {o : O} (hfresh : liveOrderFresh m k o = true) :
    Inv lt (m.update_order_for_key lt k o).2 := by
  obtain ⟨hnd, hpw, hperm⟩ := h
  have homnd : (m.order_map.map Prod.fst).Nodup := pairwise_keys_nodup hlt hpw
  have homnodup : m.order_map.Nodup := List.Nodup.of_map Prod.fst homnd
  have hprojkeys : ((m.lookup_map.map Prod.snd).map Prod.fst).Nodup :=
    (hperm.map Prod.fst).nodup homnd
  have hprojnodup : (m.lookup_map.map Prod.snd).Nodup :=
    List.Nodup.of_map Prod.fst hprojkeys
  have hfreshP := liveOrderFresh_spec hfresh
  cases hfind : alFind m.lookup_map k with
  | none =>
    simp only [GBMap.update_order_for_key, hfind]
    exact ⟨hnd, hpw, hperm⟩
  | some p =>
    obtain ⟨o₀, v₀⟩ := p
    have hkv : (k, (o₀, v₀)) ∈ m.lookup_map := alFind_mem hfind
    have hovproj : (o₀, v₀) ∈ m.lookup_map.map Prod.snd :=
      List.mem_map.2 ⟨_, hkv, rfl⟩
    have hovom : (o₀, v₀) ∈ m.order_map := hperm.mem_iff.2 hovproj
    have hfindom : alFind m.order_map o₀ = some v₀ := alFind_of_mem homnd hovom
    have hrem : alRemove m.order_map o₀ = m.order_map.erase (o₀, v₀) :=
      alRemove_eq_erase homnd hovom
    have hknotin : k ∉ (alRemove m.lookup_map k).map Prod.fst := by
      rw [alRemove_keys]
      exact fun hm => ne_of_mem_erase_nodup hnd hm rfl
    have hfind' : alFind (alRemove m.lookup_map k) k = none :=
      (alFind_eq_none_iff _ _).2 hknotin
    have hins : alInsert (alRemove m.lookup_map k) k (o, v₀) =
        alRemove m.lookup_map k ++ [(k, (o, v₀))] :=
      alInsert_of_find_none hfind' _
    have hremsnd : (alRemove m.lookup_map k).map Prod.snd =
        (m.lookup_map.map Prod.snd).erase (o₀, v₀) :=
      alRemove_snd hprojnodup hfind
    have hofresh : o ∉ (m.order_map.erase (o₀, v₀)).map Prod.fst :=
      order_fresh_in_erased hnd hperm homnodup hfreshP hkv
    simp only [GBMap.update_order_for_key, hfind, hfindom]
    refine ⟨?_, ?_, ?_⟩
    · show ((alInsert (alRemove m.lookup_map k) k (o, v₀)).map Prod.fst).Nodup
      rw [hins, List.map_append, alRemove_keys]
      simp only [List.map_cons, List.map_nil]
      rw [List.nodup_append]
      refine ⟨hnd.erase k, List.nodup_singleton k, ?_⟩
      intro a ha hb
      simp only [List.mem_singleton] at hb
      subst hb
      exact ne_of_mem_erase_nodup hnd ha rfl
    · show List.Pairwise (OrdRel lt) (omInsert lt (alRemove m.order_map o₀) o v₀)
      rw [hrem]
      exact omInsert_pairwise hlt
        (List.Pairwise.sublist (List.erase_sublist _ _) hpw) o v₀
    · show (omInsert lt (alRemove m.order_map o₀) o v₀).Perm
        ((alInsert (alRemove m.lookup_map k) k (o, v₀)).map Prod.snd)
      rw [hrem, hins, List.map_append, hremsnd]
      simp only [List.map_cons, List.map_nil]
      exact ((omInsert_perm_fresh hofresh v₀).trans
        ((hperm.erase (o₀, v₀)).cons (o, v₀))).trans
        (List.perm_append_singleton _ _).symm

theorem inv_rem {lt : O → O → Bool} (hlt : IsSLO lt) {m : GBMap K V O}
    (h : Inv lt m) (k : K) : Inv lt (m.remove k).2 := by
  obtain ⟨hnd, hpw, hperm⟩ := h
  have homnd : (m.order_map.map Prod.fst).Nodup := pairwise_keys_nodup hlt hpw
  have homnodup : m.order_map.Nodup := List.Nodup.of_map Prod.fst homnd
  have hprojkeys : ((m.lookup_map.map Prod.snd).map Prod.fst).Nodup :=
    (hperm.map Prod.fst).nodup homnd
  have hprojnodup : (m.lookup_map.map Prod.snd).Nodup :=
    List.Nodup.of_map Prod.fst hprojkeys
  cases hfind : alFind m.lookup_map k with
  | none =>
    simp only [GBMap.remove, hfind]
    exact ⟨hnd, hpw, hperm⟩
  | some p =>
    obtain ⟨o₀, v₀⟩ := p
    have hkv : (k, (o₀, v₀)) ∈ m.lookup_map := alFind_mem hfind
    have hovproj : (o₀, v₀) ∈ m.lookup_map.map Prod.snd :=
      List.mem_map.2 ⟨_, hkv, rfl⟩
    have hovom : (o₀, v₀) ∈ m.order_map := hperm.mem_iff.2 hovproj
    have hrem : alRemove m.order_map o₀ = m.order_map.erase (o₀, v₀) :=
      alRemove_eq_erase homnd hovom
    simp only [GBMap.remove, hfind]
    refine ⟨?_, ?_, ?_⟩
    · show ((alRemove m.lookup_map k).map Prod.fst).Nodup
      rw [alRemove_keys]
      exact hnd.erase k
    · show List.Pairwise (OrdRel lt) (alRemove m.order_map o₀)
      rw [hrem]
      exact List.Pairwise.sublist (List.erase_sublist _ _) hpw
    · show (alRemove m.order_map o₀).Perm ((alRemove m.lookup_map k).map Prod.snd)
      rw [hrem, alRemove_snd hprojnodup hfind]
      exact hperm.erase (o₀, v₀)

theorem inv_applyOp {lt : O → O → Bool} (hlt : IsSLO lt) {m : GBMap K V O}
    (h : Inv lt m) {op : GBOp K V O} (hop : GoodStep m op = true) :
    Inv lt (applyOp lt m op) := by
  cases op with
  | ins k v o => exact inv_insert hlt h hop v
  | upd k o => exact inv_upd hlt h hop
  | rem k => exact inv_rem hlt h k

theorem inv_applyOps {lt : O → O → Bool} (hlt : IsSLO lt) {m : GBMap K V O}
    (h : Inv lt m) {ops : List (GBOp K V O)}
    (hops : GoodSeq lt m ops = true) : Inv lt (applyOps lt m ops) := by
  induction ops generalizing m with
  | nil => exact h
  | cons op rest ih =>
    rw [GoodSeq, Bool.and_eq_true] at hops
    exact ih (inv_applyOp hlt h hops.1) hops.2

theorem inv_empty (lt : O → O → Bool) : Inv lt (GBMap.empty : GBMap K V O) := by
  refine ⟨?_, ?_, ?_⟩ <;> simp [GBMap.empty]


end GBMLemmas

/-! ### Lemmas about the concrete comparisons and the config fingerprints -/

theorem ltNat_slo : IsSLO ltNat := by
  refine ⟨?_, ?_, ?_⟩
  · intro a
    simp [ltNat]
  · intro a b c hab hbc
    simp only [ltNat, decide_eq_true_eq] at hab hbc ⊢
    omega
  · intro a b h
    simp only [ltNat, decide_eq_true_eq]
    omega

theorem ltRev_slo : IsSLO ltRev := by
  refine ⟨?_, ?_, ?_⟩
  · intro a
    simp [ltRev]
  · intro a b c hab hbc
    simp only [ltRev, decide_eq_true_eq] at hab hbc ⊢
    omega
  · intro a b h
    simp only [ltRev, decide_eq_true_eq]
    omega

/-- After a `Url` change event the stored fingerprint's URL equals the
supplied URL (either it already did, or it was just updated to it). -/
theorem config_url_after_check (hash : String → Nat) (c : ModelsCache)
    (pid : Nat) (cu ck u : String) :
    ∃ d, alFind (check_and_update_config_cache hash c pid cu ck
      (ProviderConfigChange.url u)).2.provider_config_cache pid = some ⟨u, d⟩ := by
  cases hf : alFind c.provider_config_cache pid with
  | none =>
    refine ⟨hash ck, ?_⟩
    by_cases hch : cu = u
    · subst hch
      simp [check_and_update_config_cache, ModelsCache.get_or_create_config_cache,
        hf, CachedProviderState.new, CachedProviderState.url_changed,
        CachedProviderState.set_url, alFind_alInsert_self]
    · simp [check_and_update_config_cache, ModelsCache.get_or_create_config_cache,
        hf, CachedProviderState.new, CachedProviderState.url_changed,
        CachedProviderState.set_url, hch, alFind_alInsert_self]
  | some st =>
    obtain ⟨surl, shash⟩ := st
    refine ⟨shash, ?_⟩
    by_cases hch : surl = u
    · subst hch
      simp [check_and_update_config_cache, ModelsCache.get_or_create_config_cache,
        hf, CachedProviderState.url_changed, CachedProviderState.set_url,
        alFind_alInsert_self]
    · simp [check_and_update_config_cache, ModelsCache.get_or_create_config_cache,
        hf, CachedProviderState.url_changed, CachedProviderState.set_url, hch,
        alFind_alInsert_self]

/-- After an `ApiKey` change event the stored fingerprint's digest equals the
digest of the supplied credential. -/
theorem config_key_after_check (hash : String → Nat) (c : ModelsCache)
    (pid : Nat) (cu ck : String) (ak : Option String) :
    ∃ u, alFind (check_and_update_config_cache hash c pid cu ck
      (ProviderConfigChange.apiKey ak)).2.provider_config_cache pid =
        some ⟨u, hash (ak.getD "")⟩ := by
  cases hf : alFind c.provider_config_cache pid with
  | none =>
    refine ⟨cu, ?_⟩
    by_cases hch : hash ck = hash (ak.getD "")
    · simp [check_and_update_config_cache, ModelsCache.get_or_create_config_cache,
        hf, CachedProviderState.new, CachedProviderState.api_key_changed,
        CachedProviderState.set_api_key, hch, alFind_alInsert_self]
    · simp [check_and_update_config_cache, ModelsCache.get_or_create_config_cache,
        hf, CachedProviderState.new, CachedProviderState.api_key_changed,
        CachedProviderState.set_api_key, hch, alFind_alInsert_self]
  | some st =>
    obtain ⟨surl, shash⟩ := st
    refine ⟨surl, ?_⟩
    by_cases hch : shash = hash (ak.getD "")
    · simp [check_and_update_config_cache, ModelsCache.get_or_create_config_cache,
        hf, CachedProviderState.api_key_changed, CachedProviderState.set_api_key,
        hch, alFind_alInsert_self]
    · simp [check_and_update_config_cache, ModelsCache.get_or_create_config_cache,
        hf, CachedProviderState.api_key_changed, CachedProviderState.set_api_key,
        hch, alFind_alInsert_self]

/-! ### The claims -/

/-- C1, counterexample: the claimed invariant fails on a sequence that gives
two distinct live keys equal order keys.  After `insert(1, 10, order 0)` and
`insert(2, 20, order 0)` both keys are live in the lookup index, but the
second `order_map.insert` overwrote the first key's order entry, so the
lookup index has two entries while the order index has one. -/
theorem c1_duplicate_order_key_counterexample :
    (applyOps ltNat GBMap.empty [GBOp.ins 1 10 0, GBOp.ins 2 20 0]).get 1 = some 10 ∧
    (applyOps ltNat GBMap.empty [GBOp.ins 1 10 0, GBOp.ins 2 20 0]).get 2 = some 20 ∧
    (applyOps ltNat GBMap.empty [GBOp.ins 1 10 0, GBOp.ins 2 20 0]).lookup_map.length ≠
      (applyOps ltNat GBMap.empty [GBOp.ins 1 10 0, GBOp.ins 2 20 0]).order_map.length := by
  refine ⟨by decide, by decide, by decide⟩

/-- C1 (amended): for every sequence of insert / update_order_for_key /
remove operations in which each supplied order key is not already held by a
different live key, after the sequence the lookup index and the order index
have equal cardinality, every `(order, value)` association of a lookup entry
is present in the order index, and every order entry arises from some lookup
entry.  (As stated, with equal order keys for two distinct live keys
allowed, the claim is false; see the counterexample.) -/
theorem c1_index_correspondence_for_fresh_order_keys
    {K V O : Type} [DecidableEq K] [DecidableEq O] [DecidableEq V]
    (lt : O → O → Bool) (hlt : IsSLO lt) (ops : List (GBOp K V O))
    (hgood : GoodSeq lt GBMap.empty ops = true) :
    (applyOps lt GBMap.empty ops).lookup_map.length =
      (applyOps lt GBMap.empty ops).order_map.length ∧
    (∀ k o v, (k, (o, v)) ∈ (applyOps lt GBMap.empty ops).lookup_map →
      (o, v) ∈ (applyOps lt GBMap.empty ops).order_map) ∧
    (∀ o v, (o, v) ∈ (applyOps lt GBMap.empty ops).order_map →
      ∃ k, (k, (o, v)) ∈ (applyOps lt GBMap.empty ops).lookup_map) := by
  obtain ⟨hnd, hpw, hperm⟩ := inv_applyOps hlt (inv_empty lt) hgood
  refine ⟨?_, ?_, ?_⟩
  · simpa using hperm.length_eq.symm
  · intro k o v hk
    exact hperm.mem_iff.2 (List.mem_map.2 ⟨(k, (o, v)), hk, rfl⟩)
  · intro o v ho
    rcases List.mem_map.1 (hperm.mem_iff.1 ho) with ⟨e, hel, he2⟩
    exact ⟨e.1, by rw [← he2]; exact hel⟩

theorem c1_index_correspondence_witness :
    GoodSeq ltNat (GBMap.empty : GBMap Nat Nat Nat)
      [GBOp.ins 1 10 3, GBOp.ins 2 20 5, GBOp.upd 1 7, GBOp.rem 2] = true ∧
    (applyOps ltNat GBMap.empty
      [GBOp.ins 1 10 3, GBOp.ins 2 20 5, GBOp.upd 1 7, GBOp.rem 2]).lookup_map.length =
    (applyOps ltNat (GBMap.empty : GBMap Nat Nat Nat)
      [GBOp.ins 1 10 3, GBOp.ins 2 20 5, GBOp.upd 1 7, GBOp.rem 2]).order_map.length :=
  ⟨by decide,
   (c1_index_correspondence_for_fresh_order_keys ltNat ltNat_slo
     [GBOp.ins 1 10 3, GBOp.ins 2 20 5, GBOp.upd 1 7, GBOp.rem 2] (by decide)).1⟩

/-- C4, counterexample: `values()` does not yield the stored values for every
state.  After giving two distinct live keys the same order key, the value of
key 1 is still stored (`get 1 = some 10`) but `values()` does not yield
it. -/
theorem c4_values_misses_stored_value_counterexample :
    (applyOps ltRev GBMap.empty [GBOp.ins 1 10 5, GBOp.ins 2 20 5]).get 1 = some 10 ∧
    (10 : Nat) ∉ (applyOps ltRev GBMap.empty [GBOp.ins 1 10 5, GBOp.ins 2 20 5]).values := by
  refine ⟨by decide, by decide⟩

/-- C4 (amended): for every state satisfying the dual-index correspondence
invariant (all states reachable with pairwise-distinct live order keys),
`values()` yields exactly the stored values, in non-increasing order of the
underlying order key (the `Reverse` wrapper makes the `BTreeMap` iterate
from the largest underlying key down); and the concrete scenario holds:
after inserting A(order 3), B(order 5), C(order 1) `values()` yields
B, A, C, and after updating A's order to 10 it yields A, B, C. -/
theorem c4_values_sorted_and_complete (m : GBMap Nat Nat Nat)
    (h : Inv ltRev m) :
    (GBMap.values m).Perm (m.lookup_map.map (fun e => e.2.2)) ∧
    List.Pairwise (fun a b : Nat × Nat => b.1 ≤ a.1) m.order_map ∧
    GBMap.values (applyOps ltRev GBMap.empty
      [GBOp.ins 1 101 3, GBOp.ins 2 102 5, GBOp.ins 3 103 1]) = [102, 101, 103] ∧
    GBMap.values (applyOps ltRev GBMap.empty
      [GBOp.ins 1 101 3, GBOp.ins 2 102 5, GBOp.ins 3 103 1, GBOp.upd 1 10]) =
      [101, 102, 103] := by
  obtain ⟨hnd, hpw, hperm⟩ := h
  refine ⟨?_, ?_, by decide, by decide⟩
  · simpa [GBMap.values, List.map_map, Function.comp] using hperm.map Prod.snd
  · refine hpw.imp ?_
    intro a b hab
    exact le_of_lt (of_decide_eq_true hab)

theorem c4_values_sorted_witness :
    Inv ltRev (applyOps ltRev GBMap.empty
      [GBOp.ins 1 101 3, GBOp.ins 2 102 5, GBOp.ins 3 103 1]) ∧
    (GBMap.values (applyOps ltRev GBMap.empty
      [GBOp.ins 1 101 3, GBOp.ins 2 102 5, GBOp.ins 3 103 1])).Perm
      ((applyOps ltRev (GBMap.empty : GBMap Nat Nat Nat)
        [GBOp.ins 1 101 3, GBOp.ins 2 102 5, GBOp.ins 3 103 1]).lookup_map.map
        (fun e => e.2.2)) :=
  ⟨by decide, (c4_values_sorted_and_complete _ (by decide)).1⟩

/-- C9: calling `update_order_for_key` with a key absent from the lookup
index fails with error code 1 (the `NotFound` error) and leaves both indices
completely unchanged: the returned state is the input state. -/
theorem c9_update_absent_key_notfound
    {K V O : Type} [DecidableEq K] [DecidableEq O] [DecidableEq V]
    (lt : O → O → Bool) (m : GBMap K V O) (k : K) (o : O)
    (h : alFind m.lookup_map k = none) :
    m.update_order_for_key lt k o = (Except.error 1, m) := by
  simp only [GBMap.update_order_for_key, h]

theorem c9_update_absent_key_witness :
    alFind (GBMap.empty : GBMap Nat Nat Nat).lookup_map 1 = none ∧
    (GBMap.empty : GBMap Nat Nat Nat).update_order_for_key ltNat 1 5 =
      (Except.error 1, GBMap.empty) :=
  ⟨by decide, c9_update_absent_key_notfound ltNat GBMap.empty 1 5 (by decide)⟩

/-- C10: when `update_order_for_key` finds the key in the lookup index but
its order entry is missing from the order index, it returns error code 2
(the `Inconsistent` defect) with the key already removed from the lookup
index and not restored — the order index is untouched, and the entry is lost
from the map entirely (`get` on the key returns `none` afterwards). -/
theorem c10_inconsistent_error_loses_entry
    {K V O : Type} [DecidableEq K] [DecidableEq O] [DecidableEq V]
    (lt : O → O → Bool) (m : GBMap K V O) (k : K) (o₀ : O) (v : V) (o' : O)
    (h1 : alFind m.lookup_map k = some (o₀, v))
    (h2 : alFind m.order_map o₀ = none) :
    m.update_order_for_key lt k o' =
      (Except.error 2, { m with lookup_map := alRemove m.lookup_map k }) ∧
    ((m.lookup_map.map Prod.fst).Nodup →
      ((m.update_order_for_key lt k o').2).get k = none) := by
  have hres : m.update_order_for_key lt k o' =
      (Except.error 2, { m with lookup_map := alRemove m.lookup_map k }) := by
    simp only [GBMap.update_order_for_key, h1, h2]
  refine ⟨hres, ?_⟩
  intro hnd
  rw [hres]
  show (alFind (alRemove m.lookup_map k) k).map Prod.snd = none
  rw [alFind_alRemove_self hnd]
  rfl

theorem c10_inconsistent_error_witness :
    (GBMap.mk [(1, (5, 10))] ([] : List (Nat × Nat))).update_order_for_key ltNat 1 7 =
      (Except.error 2, GBMap.mk [] []) ∧
    ((GBMap.mk [(1, (5, 10))] ([] : List (Nat × Nat))).update_order_for_key ltNat 1 7).2.get 1 =
      none :=
  ⟨(c10_inconsistent_error_loses_entry ltNat (GBMap.mk [(1, (5, 10))] []) 1 5 10 7
      (by decide) (by decide)).1,
   (c10_inconsistent_error_loses_entry ltNat (GBMap.mk [(1, (5, 10))] []) 1 5 10 7
      (by decide) (by decide)).2 (by decide)⟩

/-- C2, counterexample: `check_and_update_config_cache` does not return false
on the very first call for a provider.  With no fingerprint cached, the
fingerprint is seeded from the provider's current values and immediately
compared against the supplied change, so a first call whose `Url` event
carries a URL different from the current one reports a change. -/
theorem c2_first_call_counterexample :
    alFind (ModelsCache.new).provider_config_cache 1 = none ∧
    (check_and_update_config_cache String.length ModelsCache.new 1 "http://a" "k"
      (ProviderConfigChange.url "http://b")).1 = true := by
  refine ⟨rfl, by decide⟩

/-- C2 (amended): the fingerprint is created from the provider's current
values on first use; a `Create` event always reports a change; a `Url`
(resp. `ApiKey`) event reports a change exactly when the supplied URL
(resp. the digest of the supplied credential) differs from the stored —
or just-seeded — fingerprint's URL (resp. digest); the fingerprint is
updated only when a change is reported; and repeating the same `Url` or
`ApiKey` value reports no change and leaves the cache unchanged,
indefinitely. -/
theorem c2_config_change_detection (hash : String → Nat) (c : ModelsCache)
    (pid : Nat) (cu ck : String) :
    ((check_and_update_config_cache hash c pid cu ck ProviderConfigChange.create).1 = true) ∧
    (∀ u, (check_and_update_config_cache hash c pid cu ck (ProviderConfigChange.url u)).1 =
      decide ((ModelsCache.get_or_create_config_cache hash c pid cu ck).1.url ≠ u)) ∧
    (∀ ak, (check_and_update_config_cache hash c pid cu ck (ProviderConfigChange.apiKey ak)).1 =
      decide ((ModelsCache.get_or_create_config_cache hash c pid cu ck).1.api_key_hash ≠
        hash (ak.getD ""))) ∧
    (∀ u, (check_and_update_config_cache hash c pid cu ck (ProviderConfigChange.url u)).1 = false →
      (check_and_update_config_cache hash c pid cu ck (ProviderConfigChange.url u)).2 =
        (ModelsCache.get_or_create_config_cache hash c pid cu ck).2) ∧
    (∀ ak, (check_and_update_config_cache hash c pid cu ck (ProviderConfigChange.apiKey ak)).1 = false →
      (check_and_update_config_cache hash c pid cu ck (ProviderConfigChange.apiKey ak)).2 =
        (ModelsCache.get_or_create_config_cache hash c pid cu ck).2) ∧
    (∀ u,
      (check_and_update_config_cache hash
        (check_and_update_config_cache hash c pid cu ck (ProviderConfigChange.url u)).2
        pid cu ck (ProviderConfigChange.url u)).1 = false ∧
      (check_and_update_config_cache hash
        (check_and_update_config_cache hash c pid cu ck (ProviderConfigChange.url u)).2
        pid cu ck (ProviderConfigChange.url u)).2 =
        (check_and_update_config_cache hash c pid cu ck (ProviderConfigChange.url u)).2) ∧
    (∀ ak,
      (check_and_update_config_cache hash
        (check_and_update_config_cache hash c pid cu ck (ProviderConfigChange.apiKey ak)).2
        pid cu ck (ProviderConfigChange.apiKey ak)).1 = false ∧
      (check_and_update_config_cache hash
        (check_and_update_config_cache hash c pid cu ck (ProviderConfigChange.apiKey ak)).2
        pid cu ck (ProviderConfigChange.apiKey ak)).2 =
        (check_and_update_config_cache hash c pid cu ck (ProviderConfigChange.apiKey ak)).2) ∧
    (alFind c.provider_config_cache pid = none →
      (ModelsCache.get_or_create_config_cache hash c pid cu ck).1 =
        CachedProviderState.new hash cu ck) := by
  refine ⟨rfl, ?_, ?_, ?_, ?_, ?_, ?_, ?_⟩
  · intro u
    simp only [check_and_update_config_cache, CachedProviderState.url_changed]
    split <;> rfl
  · intro ak
    simp only [check_and_update_config_cache, CachedProviderState.api_key_changed]
    split <;> rfl
  · intro u hrep
    by_cases hch : (ModelsCache.get_or_create_config_cache hash c pid cu ck).1.url = u
    · simp [check_and_update_config_cache, CachedProviderState.url_changed, hch]
    · exfalso
      simp [check_and_update_config_cache, CachedProviderState.url_changed, hch] at hrep
  · intro ak hrep
    by_cases hch : (ModelsCache.get_or_create_config_cache hash c pid cu ck).1.api_key_hash =
        hash (ak.getD "")
    · simp [check_and_update_config_cache, CachedProviderState.api_key_changed, hch]
    · exfalso
      simp [check_and_update_config_cache, CachedProviderState.api_key_changed, hch] at hrep
  · intro u
    obtain ⟨d, hfind⟩ := config_url_after_check hash c pid cu ck u
    set c₁ := (check_and_update_config_cache hash c pid cu ck
      (ProviderConfigChange.url u)).2 with hc₁
    constructor
    · simp [check_and_update_config_cache, ModelsCache.get_or_create_config_cache,
        hfind, CachedProviderState.url_changed]
    · simp [check_and_update_config_cache, ModelsCache.get_or_create_config_cache,
        hfind, CachedProviderState.url_changed]
  · intro ak
    obtain ⟨u, hfind⟩ := config_key_after_check hash c pid cu ck ak
    set c₁ := (check_and_update_config_cache hash c pid cu ck
      (ProviderConfigChange.apiKey ak)).2 with hc₁
    constructor
    · simp [check_and_update_config_cache, ModelsCache.get_or_create_config_cache,
        hfind, CachedProviderState.api_key_changed]
    · simp [check_and_update_config_cache, ModelsCache.get_or_create_config_cache,
        hfind, CachedProviderState.api_key_changed]
  · intro hnone
    simp [ModelsCache.get_or_create_config_cache, hnone]

theorem c2_config_change_detection_witness :
    (check_and_update_config_cache String.length ModelsCache.new 1 "a" "k"
      ProviderConfigChange.create).1 = true ∧
    (check_and_update_config_cache String.length ModelsCache.new 1 "a" "k"
      (ProviderConfigChange.url "bb")).1 =
      decide ((ModelsCache.get_or_create_config_cache String.length ModelsCache.new 1
        "a" "k").1.url ≠ "bb") ∧
    (ModelsCache.get_or_create_config_cache String.length ModelsCache.new 1 "a" "k").1 =
      CachedProviderState.new String.length "a" "k" :=
  ⟨(c2_config_change_detection String.length ModelsCache.new 1 "a" "k").1,
   (c2_config_change_detection String.length ModelsCache.new 1 "a" "k").2.1 "bb",
   (c2_config_change_detection String.length ModelsCache.new 1 "a" "k").2.2.2.2.2.2.2 rfl⟩

/-- C6: `get_provider_models` returns the cached pair exactly when the entry
is not stale; after a refresh at `t₀`, `is_provider_stale` at `now` is true
exactly when `t₀ + TTL ≤ now` (TTL = 120 s) and `get_provider_models`
returns the refreshed `(name, models)` exactly while `now < t₀ + TTL`; with
no cache entry, `is_provider_stale` is true. -/
theorem c6_catalog_ttl_staleness :
    (∀ (now : Nat) (c : ModelsCache) (pid : Nat),
      (ModelsCache.get_provider_models now c pid).isSome =
        !(ModelsCache.is_provider_stale now c pid)) ∧
    (∀ (c : ModelsCache) (pid : Nat) (name : String) (models : List String) (t₀ now : Nat),
      ModelsCache.is_provider_stale now
          (ModelsCache.refresh_models_for_provider t₀ c pid name models) pid =
        decide (t₀ + MODEL_FETCH_COOLDOWN_SECS ≤ now) ∧
      ModelsCache.get_provider_models now
          (ModelsCache.refresh_models_for_provider t₀ c pid name models) pid =
        (if now < t₀ + MODEL_FETCH_COOLDOWN_SECS then some (name, models) else none)) ∧
    (∀ (now : Nat) (c : ModelsCache) (pid : Nat),
      alFind c.per_provider pid = none →
      ModelsCache.is_provider_stale now c pid = true) := by
  refine ⟨?_, ?_, ?_⟩
  · intro now c pid
    cases hf : alFind c.per_provider pid with
    | none =>
      simp [ModelsCache.get_provider_models, ModelsCache.is_provider_stale, hf]
    | some cached =>
      by_cases h : now - cached.fetched_at < MODEL_FETCH_COOLDOWN_SECS
      · simp [ModelsCache.get_provider_models, ModelsCache.is_provider_stale, hf, h,
          Nat.not_le.2 h]
      · simp [ModelsCache.get_provider_models, ModelsCache.is_provider_stale, hf, h,
          Nat.le_of_not_lt h]
  · intro c pid name models t₀ now
    have hfind : alFind (ModelsCache.refresh_models_for_provider t₀ c pid name
        models).per_provider pid = some ⟨models, name, t₀⟩ := by
      simp only [ModelsCache.refresh_models_for_provider, ModelsCache.rebuild_all_models]
      exact alFind_alInsert_self _ _ _
    constructor
    · simp only [ModelsCache.is_provider_stale, hfind, MODEL_FETCH_COOLDOWN_SECS]
      exact decide_eq_decide.2 (by omega)
    · simp only [ModelsCache.get_provider_models, hfind, MODEL_FETCH_COOLDOWN_SECS]
      by_cases h : now < t₀ + 120
      · have h' : now - t₀ < 120 := by omega
        simp [h, h']
      · have h' : ¬(now - t₀ < 120) := by omega
        simp [h, h']
  · intro now c pid h
    simp [ModelsCache.is_provider_stale, h]

theorem c6_catalog_ttl_witness :
    ModelsCache.is_provider_stale 60
      (ModelsCache.refresh_models_for_provider 0 ModelsCache.new 1 "Ollama" ["a", "b"]) 1 =
        false ∧
    ModelsCache.is_provider_stale 121
      (ModelsCache.refresh_models_for_provider 0 ModelsCache.new 1 "Ollama" ["a", "b"]) 1 =
        true ∧
    ModelsCache.get_provider_models 60
      (ModelsCache.refresh_models_for_provider 0 ModelsCache.new 1 "Ollama" ["a", "b"]) 1 =
        some ("Ollama", ["a", "b"]) ∧
    ModelsCache.is_provider_stale 5 ModelsCache.new 1 = true :=
  ⟨((c6_catalog_ttl_staleness.2.1 ModelsCache.new 1 "Ollama" ["a", "b"] 0 60).1).trans
      (by decide),
   ((c6_catalog_ttl_staleness.2.1 ModelsCache.new 1 "Ollama" ["a", "b"] 0 121).1).trans
      (by decide),
   ((c6_catalog_ttl_staleness.2.1 ModelsCache.new 1 "Ollama" ["a", "b"] 0 60).2).trans
      (by decide),
   c6_catalog_ttl_staleness.2.2 5 ModelsCache.new 1 rfl⟩

/-- C7: from an idle gate, of two back-to-back sweep requests (no awaiting in
between) exactly the first acquires the `FETCH_IN_PROGRESS` gate; the second
is denied and leaves the whole state — in particular the models cache —
unchanged; when the running sweep's body finishes it clears the gate, so a
later sweep request acquires it again. -/
theorem c7_sweep_gate (s : SweepState) (h : s.fetch_in_progress = false)
    (now : Nat) (fetched : List (Nat × String × List String)) :
    (sweep_request s).1 = true ∧
    (sweep_request (sweep_request s).2).1 = false ∧
    (sweep_request (sweep_request s).2).2 = (sweep_request s).2 ∧
    (sweep_run (sweep_request (sweep_request s).2).2 now fetched).fetch_in_progress =
      false ∧
    (sweep_request (sweep_run (sweep_request (sweep_request s).2).2 now fetched)).1 =
      true := by
  refine ⟨?_, ?_, ?_, ?_, ?_⟩ <;> simp [sweep_request, sweep_run, h]

theorem c7_sweep_gate_witness :
    (sweep_request (SweepState.mk false ModelsCache.new)).1 = true ∧
    (sweep_request (sweep_request (SweepState.mk false ModelsCache.new)).2).1 = false :=
  ⟨(c7_sweep_gate (SweepState.mk false ModelsCache.new) rfl 0 []).1,
   (c7_sweep_gate (SweepState.mk false ModelsCache.new) rfl 0 []).2.1⟩

/-- C3, counterexample: a `push_message_content` call whose store statement
fails propagates the error but does not leave the in-memory state unchanged:
the optimistic append to the cached message happened before the store call
and is not rolled back. -/
theorem c3_failed_push_content_mutates_memory :
    (push_message_content (some "io error") [] (ChatState.mk [(1, "hi")] GBMap.empty)
      0 1 "x" 7).1 = Except.error "io error" ∧
    (push_message_content (some "io error") [] (ChatState.mk [(1, "hi")] GBMap.empty)
      0 1 "x" 7).2.2.messages = [(1, "hix")] ∧
    [(1, "hix")] ≠ [(1, "hi")] := by
  refine ⟨rfl, rfl, by decide⟩

/-- C3 (amended): a store-level failure of a write operation is propagated to
the caller as the store's error.  `push_message` leaves the store, the
message map and the chat ordering unchanged on failure; a failed
`push_message_content` leaves the store and the chat ordering unchanged, but
its optimistic in-memory append (performed before the store call) persists:
the cached content of the message already carries the delta. -/
theorem c3_store_error_propagation (e : String) (store : Store) (st : ChatState)
    (chat_id mid : Nat) (content : String) (now : Nat) :
    push_message (some e) store st chat_id mid content now =
      (Except.error e, store, st) ∧
    (push_message_content (some e) store st chat_id mid content now).1 =
      Except.error e ∧
    (push_message_content (some e) store st chat_id mid content now).2.1 = store ∧
    (push_message_content (some e) store st chat_id mid content now).2.2.chats =
      st.chats ∧
    (∀ cached, alFind st.messages mid = some cached →
      alFind (push_message_content (some e) store st chat_id mid content now).2.2.messages
        mid = some (cached ++ content)) := by
  refine ⟨rfl, rfl, rfl, rfl, ?_⟩
  intro cached hc
  simp only [push_message_content, hc]
  exact alFind_alInsert_self _ _ _

theorem c3_store_error_witness :
    push_message (some "io") [] (ChatState.mk [] GBMap.empty) 0 1 "x" 0 =
      (Except.error "io", [], ChatState.mk [] GBMap.empty) ∧
    alFind (push_message_content (some "io") [] (ChatState.mk [(1, "hi")] GBMap.empty)
      0 1 "x" 0).2.2.messages 1 = some ("hi" ++ "x") :=
  ⟨(c3_store_error_propagation "io" [] (ChatState.mk [] GBMap.empty) 0 1 "x" 0).1,
   (c3_store_error_propagation "io" [] (ChatState.mk [(1, "hi")] GBMap.empty)
     0 1 "x" 0).2.2.2.2 "hi" rfl⟩

/-- C5: a `push_message_content` call that completes for a message present in
the session returns `Ok`, and at return the in-memory content of the message
equals the authoritative content produced by the store's
`UPDATE ... RETURNING` statement (the prior store content followed by the
delta) — the store's value wins on any mismatch, so memory and store agree
after the call. -/
theorem c5_push_content_memory_matches_store (store : Store) (st : ChatState)
    (chat_id mid : Nat) (content : String) (now : Nat) (stored cached : String)
    (hs : alFind store mid = some stored)
    (hm : alFind st.messages mid = some cached) :
    (push_message_content none store st chat_id mid content now).1 =
      Except.ok () ∧
    alFind (push_message_content none store st chat_id mid content now).2.1 mid =
      some (stored ++ content) ∧
    alFind (push_message_content none store st chat_id mid content now).2.2.messages
      mid = some (stored ++ content) := by
  refine ⟨?_, ?_, ?_⟩
  · simp only [push_message_content, hm, hs]
  · simp only [push_message_content, hm, hs]
    exact alFind_alInsert_self _ _ _
  · simp only [push_message_content, hm, hs, alFind_alInsert_self]
    by_cases hcase : stored ++ content = cached ++ content
    · simp [hcase, alFind_alInsert_self]
    · simp [hcase, alFind_alInsert_self]

theorem c5_push_content_memory_witness :
    (push_message_content none [(1, "srv")] (ChatState.mk [(1, "hi")] GBMap.empty)
      0 1 "x" 7).1 = Except.ok () ∧
    alFind (push_message_content none [(1, "srv")] (ChatState.mk [(1, "hi")] GBMap.empty)
      0 1 "x" 7).2.2.messages 1 = some ("srv" ++ "x") :=
  ⟨(c5_push_content_memory_matches_store [(1, "srv")]
      (ChatState.mk [(1, "hi")] GBMap.empty) 0 1 "x" 7 "srv" "hi" rfl rfl).1,
   (c5_push_content_memory_matches_store [(1, "srv")]
      (ChatState.mk [(1, "hi")] GBMap.empty) 0 1 "x" 7 "srv" "hi" rfl rfl).2.2⟩

/-- C8, counterexample: a provider error raised mid-stream (after a delta has
been applied) is not appended to the assistant message: the `while let
Some(Ok(chunk))` loop simply stops, leaving only the prior deltas, and the
error text "boom" is discarded. -/
theorem c8_midstream_error_discarded_counterexample :
    run_generation (Except.ok [Except.ok "a", Except.error "boom"]) "" = "a" ∧
    run_generation (Except.ok [Except.ok "a", Except.error "boom"]) "" ≠
      "" ++ "a" ++ "boom" := by
  refine ⟨rfl, by decide⟩

/-- C8 (amended): only an error of the initial chat request is appended to
the assistant message's content; once streaming has begun, an error item
terminates the loop at that point — the generation result equals the result
of the stream truncated at the first error, and the error's text is never
appended. -/
theorem c8_error_surfacing :
    (∀ err content, run_generation (Except.error err) content = content ++ err) ∧
    (∀ err content (pre rest : List StreamItem),
      run_generation (Except.ok (pre ++ Except.error err :: rest)) content =
        run_generation (Except.ok pre) content) := by
  constructor
  · intro err content
    rfl
  · intro err content pre rest
    simp only [run_generation]
    induction pre generalizing content with
    | nil => rfl
    | cons item p ih =>
      cases item with
      | ok chunk =>
        simp only [List.cons_append, streamLoop]
        exact ih _
      | error e => rfl

end Astrum
